import Mathlib

/-!
Verification of the LEMMA training pipeline (src/scripts/production_train.py and
its Colab variants).  The definitions below are a shallow embedding of the
label-vocabulary handling, the multi-hot dataset encoding, the gradient
accumulation loop of train_epoch, the evaluation metrics, the early-stopping
driver of main, and the static-graph export interface.  Machine floats are
modelled as rationals extended with a single non-finite element; tensors of the
training loop are abstracted to one scalar per micro-batch.
-/

/-- Substitution vocabulary of production_train.py (CELL 3, lines 72 to 93).
The identical list appears in train_colab_1m.py and train_colab_fixed.py. -/
def VOCAB : List String := [
  "x = 0",
  "y = 0",
  "x = y",
  "x = 1",
  "y = 1",
  "a = b = c = 1",
  "abc = 1 constraint",
  "Apply AM-GM",
  "Apply Cauchy-Schwarz",
  "Assume f is linear",
  "Assume f is injective",
  "Assume f is monotonic",
  "Check small cases",
  "Use modular arithmetic",
  "Homogenize",
  "WLOG assume ordering",
  "Substitute c = 1/(ab)",
  "y = f(x)",
  "x = -y",
  "Consider p = 2 separately"]

/-- NUM_LABELS = len(VOCAB) (production_train.py line 95). -/
def NUM_LABELS : ℕ := VOCAB.length

/-- Helper for the vocab index dict: the last index at which the string s occurs
in the list, with indices counted from i.  A later occurrence overwrites an
earlier one, exactly as successive enumerate entries overwrite each other in the
Python dict comprehension. -/
def lastIdxFrom (s : String) : ℕ → List String → Option ℕ
  | _, [] => none
  | i, v :: rest =>
    match lastIdxFrom s (i + 1) rest with
    | some j => some j
    | none => if v = s then some i else none

/-- The vocab_to_idx dict built by IMODataset.__init__ (production_train.py line
404): a dict comprehension over enumerate(vocab), so a duplicated label ends up
mapped to its last index and a string absent from vocab is absent from the dict. -/
def vocabToIdx (vocab : List String) (s : String) : Option ℕ :=
  lastIdxFrom s 0 vocab

/-- Multi-hot label encoding of IMODataset.__getitem__ (production_train.py
lines 423 to 427): start from a zero vector of length len(vocab) and set
position vocab_to_idx[sub] to 1 for every sub found in the dict; a sub missing
from the dict is skipped without effect. -/
def label_vector (vocab : List String) (subs : List String) : List ℚ :=
  subs.foldl
    (fun lab sub =>
      match vocabToIdx vocab sub with
      | some i => lab.set i 1
      | none => lab)
    (List.replicate vocab.length 0)

/-- Scalar float value flowing through the training loop: a finite rational or
the single absorbing non-finite element (NaN or an infinity). -/
inductive LossVal where
  | fin : ℚ → LossVal
  | nonfinite : LossVal
deriving DecidableEq, Repr

namespace LossVal

/-- Float addition: any sum touching a non-finite operand is non-finite. -/
def add : LossVal → LossVal → LossVal
  | fin a, fin b => fin (a + b)
  | _, _ => nonfinite

instance : Add LossVal := ⟨add⟩

instance : Zero LossVal := ⟨fin 0⟩

/-- Division by the (integer) accumulation factor: loss / accumulation_steps. -/
def divNat : LossVal → ℕ → LossVal
  | fin a, n => fin (a / (n : ℚ))
  | nonfinite, _ => nonfinite

/-- Multiplication by the accumulation factor: loss.item() * accumulation_steps. -/
def mulNat : LossVal → ℕ → LossVal
  | fin a, n => fin (a * (n : ℚ))
  | nonfinite, _ => nonfinite

/-- Scalar form of torch.nn.utils.clip_grad_norm_(parameters, 1.0): a finite
value is clamped into the interval from -1 to 1, a non-finite norm leaves the
value non-finite. -/
def clipTo1 : LossVal → LossVal
  | fin a => fin (if a < -1 then -1 else if 1 < a then 1 else a)
  | nonfinite => nonfinite

theorem add_def (a b : LossVal) : a + b = add a b := rfl

theorem zero_def : (0 : LossVal) = fin 0 := rfl

instance : AddCommMonoid LossVal where
  add_assoc a b c := by
    cases a <;> cases b <;> cases c <;> simp [add_def, add, add_assoc]
  zero_add a := by cases a <;> simp [add_def, add, zero_def]
  add_zero a := by cases a <;> simp [add_def, add, zero_def]
  add_comm a b := by cases a <;> cases b <;> simp [add_def, add, add_comm]
  nsmul := nsmulRec

theorem nonfinite_add (a : LossVal) : nonfinite + a = nonfinite := by
  cases a <;> rfl

theorem add_nonfinite (a : LossVal) : a + nonfinite = nonfinite := by
  cases a <;> rfl

/-- Undoing the loss scaling: (x / K) * K = x for every positive K, including
the non-finite case. -/
theorem mulNat_divNat (x : LossVal) (K : ℕ) (hK : 1 ≤ K) :
    (x.divNat K).mulNat K = x := by
  cases x with
  | fin a =>
    have hKQ : (K : ℚ) ≠ 0 := Nat.cast_ne_zero.mpr (Nat.one_le_iff_ne_zero.mp hK)
    simp [divNat, mulNat, div_mul_cancel₀ _ hKQ]
  | nonfinite => rfl

/-- A list sum containing the non-finite element is non-finite. -/
theorem sum_eq_nonfinite {l : List LossVal} (h : nonfinite ∈ l) :
    l.sum = nonfinite := by
  induction l with
  | nil => cases h
  | cons x xs ih =>
    rcases List.mem_cons.mp h with h1 | h2
    · rw [List.sum_cons, ← h1, nonfinite_add]
    · rw [List.sum_cons, ih h2, add_nonfinite]

end LossVal

/-- Trace of one call of train_epoch (production_train.py lines 439 to 466):
the indices of micro-batches after whose backward pass the optimizer stepped,
the (clipped) accumulated gradient consumed by each optimizer step, the number
of scheduler steps, the gradient left accumulated when the loader is exhausted,
the scaled per-micro-batch losses sent to backward, and the running total_loss. -/
structure EpochResult where
  stepIndices : List ℕ
  stepGrads : List LossVal
  schedSteps : ℕ
  finalGrad : LossVal
  scaledLosses : List LossVal
  totalLoss : LossVal
deriving DecidableEq, Repr

/-- Body of the for-loop of train_epoch: each micro-batch carries its loss and
its (abstract, full-batch) gradient contribution.  Per iteration the loss is
divided by accumulation_steps, backward accumulates the equally scaled gradient,
and when (i + 1) is a multiple of accumulation_steps the gradient is clipped,
the optimizer and the scheduler step, and the gradient is zeroed; finally
total_loss accumulates loss.item() * accumulation_steps. -/
def runBatches (K : ℕ) : ℕ → LossVal → List (LossVal × LossVal) → EpochResult
  | _, grad, [] => ⟨[], [], 0, grad, [], 0⟩
  | i, grad, b :: rest =>
    let scaled := b.1.divNat K
    let grad1 := grad + b.2.divNat K
    if (i + 1) % K = 0 then
      let r := runBatches K (i + 1) 0 rest
      ⟨i :: r.stepIndices, grad1.clipTo1 :: r.stepGrads, r.schedSteps + 1,
        r.finalGrad, scaled :: r.scaledLosses, scaled.mulNat K + r.totalLoss⟩
    else
      let r := runBatches K (i + 1) grad1 rest
      ⟨r.stepIndices, r.stepGrads, r.schedSteps, r.finalGrad,
        scaled :: r.scaledLosses, scaled.mulNat K + r.totalLoss⟩

/-- train_epoch (production_train.py lines 439 to 466).  The parameter g0 is
whatever gradient state the optimizer still holds when the epoch starts; the
first statement of the loop body region, optimizer.zero_grad() on line 443,
discards it before any batch is processed. -/
def train_epoch (g0 : LossVal) (batches : List (LossVal × LossVal)) (K : ℕ) :
    EpochResult :=
  runBatches K 0 0 batches

/-- The value returned by train_epoch: total_loss / len(loader) (line 466). -/
def train_epoch_avg (g0 : LossVal) (batches : List (LossVal × LossVal)) (K : ℕ) :
    LossVal :=
  (train_epoch g0 batches K).totalLoss.divNat batches.length

/-- Specification-side grouping of the scaled gradients into the complete
accumulation windows of size K; a trailing window shorter than K is dropped. -/
def fullBlocks (K : ℕ) (l : List LossVal) : List (List LossVal) :=
  if h : 1 ≤ K ∧ K ≤ l.length then
    l.take K :: fullBlocks K (l.drop K)
  else []
termination_by l.length
decreasing_by
  simp only [List.length_drop]
  omega

/-- Per-sample exact-match accuracy of evaluate (production_train.py line 496):
(all_preds == all_labels).all(axis=1).mean(). -/
def accuracy (preds labels : List (List ℚ)) : ℚ :=
  (((preds.zip labels).countP (fun r => decide (r.1 = r.2)) : ℕ) : ℚ) /
    ((preds.length : ℕ) : ℚ)

/-- Class labels considered by precision_recall_fscore_support when its labels
argument is omitted: the distinct values occurring in either flattened array.
sklearn sorts them, but the order is immaterial for the pooled micro sums
below.  On the 0/1 cell matrices of evaluate both classes 0 and 1 are present. -/
def present_labels (preds labels : List ℚ) : List ℚ :=
  (preds ++ labels).dedup

/-- Per-class true positives over the flattened cells: prediction and ground
truth both equal to the class. -/
def classTP (preds labels : List ℚ) (c : ℚ) : ℕ :=
  (preds.zip labels).countP (fun q => decide (q.1 = c ∧ q.2 = c))

/-- Per-class false positives over the flattened cells: prediction equal to the
class, ground truth not. -/
def classFP (preds labels : List ℚ) (c : ℚ) : ℕ :=
  (preds.zip labels).countP (fun q => decide (q.1 = c ∧ q.2 ≠ c))

/-- Per-class false negatives over the flattened cells: ground truth equal to
the class, prediction not. -/
def classFN (preds labels : List ℚ) (c : ℚ) : ℕ :=
  (preds.zip labels).countP (fun q => decide (q.1 ≠ c ∧ q.2 = c))

/-- Pooled true positives of precision_recall_fscore_support with
average set to micro (production_train.py lines 499 to 501): per-class true
positives summed over every class present in the flattened arrays, which for
the binary cell matrices of evaluate means both class 0 and class 1. -/
def micro_tp_sum (preds labels : List (List ℚ)) : ℕ :=
  ((present_labels preds.flatten labels.flatten).map
    (classTP preds.flatten labels.flatten)).sum

/-- Pooled false positives over every class present in the flattened arrays. -/
def micro_fp_sum (preds labels : List (List ℚ)) : ℕ :=
  ((present_labels preds.flatten labels.flatten).map
    (classFP preds.flatten labels.flatten)).sum

/-- Pooled false negatives over every class present in the flattened arrays. -/
def micro_fn_sum (preds labels : List (List ℚ)) : ℕ :=
  ((present_labels preds.flatten labels.flatten).map
    (classFN preds.flatten labels.flatten)).sum

/-- Micro-averaged precision of the sklearn call on the flattened arrays, with
the zero_division=0 guard: the pooled true positives over the pooled predicted
positives of all present classes.  Pooling both binary classes makes this the
fraction of cells predicted correctly. -/
def micro_precision (preds labels : List (List ℚ)) : ℚ :=
  if (micro_tp_sum preds labels : ℚ) + (micro_fp_sum preds labels : ℚ) = 0
    then 0
    else (micro_tp_sum preds labels : ℚ) /
      ((micro_tp_sum preds labels : ℚ) + (micro_fp_sum preds labels : ℚ))

/-- Micro-averaged recall of the sklearn call on the flattened arrays, with the
zero_division=0 guard. -/
def micro_recall (preds labels : List (List ℚ)) : ℚ :=
  if (micro_tp_sum preds labels : ℚ) + (micro_fn_sum preds labels : ℚ) = 0
    then 0
    else (micro_tp_sum preds labels : ℚ) /
      ((micro_tp_sum preds labels : ℚ) + (micro_fn_sum preds labels : ℚ))

/-- Micro-averaged F1 as the harmonic mean of micro precision and recall, with
the zero_division=0 guard. -/
def micro_f1 (preds labels : List (List ℚ)) : ℚ :=
  if micro_precision preds labels + micro_recall preds labels = 0
    then 0
    else 2 * micro_precision preds labels * micro_recall preds labels /
      (micro_precision preds labels + micro_recall preds labels)

/-- Early-stopping driver of the main training loop (production_train.py lines
585 to 612), abstracted over the per-epoch F1 values: starting from best_f1 = 0
and patience_counter = 0, an epoch whose F1 exceeds best_f1 + min_delta resets
the counter and updates the best value; otherwise the counter is incremented
and, once it reaches patience, the loop breaks.  The function returns how many
evaluations have run when the loop ends. -/
def earlyStopLoop (patience : ℕ) (minDelta : ℚ) :
    ℚ → ℕ → ℕ → List ℚ → ℕ
  | _, _, done, [] => done
  | best, counter, done, f :: rest =>
    if best + minDelta < f then
      earlyStopLoop patience minDelta f 0 (done + 1) rest
    else if patience ≤ counter + 1 then
      done + 1
    else
      earlyStopLoop patience minDelta best (counter + 1) (done + 1) rest

/-- Number of evaluations performed by the training loop on a given metric
sequence. -/
def earlyStopEvals (patience : ℕ) (minDelta : ℚ) (f1s : List ℚ) : ℕ :=
  earlyStopLoop patience minDelta 0 0 0 f1s

/-- The input tensor names of the torch.onnx.export call (production_train.py
line 652; identically train_colab_1m.py line 310). -/
def onnx_input_names : List String := ["input_ids", "attention_mask"]

/-- The output tensor names of the torch.onnx.export call (line 653). -/
def onnx_output_names : List String := ["logits"]

/-- The sidecar vocabulary written next to the artifact: json.dump(VOCAB, f)
into vocab.json (production_train.py lines 632 to 633). -/
def sidecar_vocab : List String := VOCAB

/-- Evaluation decision rule of evaluate (production_train.py line 487):
(torch.sigmoid(logits) > 0.5), with sigmoid z = 1 / (1 + exp (-z)). -/
def predictedPresent (z : ℝ) : Prop :=
  1 / (1 + Real.exp (-z)) > 1 / 2

/-! ### Lemmas about the vocabulary index dict -/

theorem lastIdxFrom_eq_none {s : String} :
    ∀ (l : List String) (i : ℕ), lastIdxFrom s i l = none ↔ s ∉ l := by
  intro l
  induction l with
  | nil => intro i; simp [lastIdxFrom]
  | cons v rest ih =>
    intro i
    simp only [lastIdxFrom, List.mem_cons]
    rcases h : lastIdxFrom s (i + 1) rest with _ | j
    · have hrest : s ∉ rest := (ih (i + 1)).mp h
      by_cases hv : v = s
      · simp [hv]
      · simp only [if_neg hv]
        constructor
        · intro _ hmem
          rcases hmem with h1 | h2
          · exact hv h1.symm
          · exact hrest h2
        · intro _; trivial
    · have hrest : s ∈ rest := by
        by_contra hc
        rw [← ih (i + 1)] at hc
        rw [h] at hc
        cases hc
      simp [hrest]

theorem lastIdxFrom_bound_get {s : String} :
    ∀ (l : List String) (i k : ℕ), lastIdxFrom s i l = some k →
      i ≤ k ∧ l[k - i]? = some s := by
  intro l
  induction l with
  | nil => intro i k h; cases h
  | cons v rest ih =>
    intro i k h
    simp only [lastIdxFrom] at h
    rcases hr : lastIdxFrom s (i + 1) rest with _ | j
    · rw [hr] at h
      by_cases hv : v = s
      · rw [if_pos hv] at h
        cases h
        simp [hv]
      · rw [if_neg hv] at h; cases h
    · rw [hr] at h
      cases h
      obtain ⟨hle, hget⟩ := ih (i + 1) k hr
      refine ⟨le_trans (Nat.le_succ i) hle, ?_⟩
      have hki : k - i = (k - (i + 1)) + 1 := by omega
      rw [hki]
      simpa using hget

theorem lastIdxFrom_last {s : String} :
    ∀ (l : List String) (i k : ℕ), lastIdxFrom s i l = some k →
      ∀ m, k - i < m → l[m]? ≠ some s := by
  intro l
  induction l with
  | nil => intro i k h; cases h
  | cons v rest ih =>
    intro i k h m hm
    simp only [lastIdxFrom] at h
    rcases hr : lastIdxFrom s (i + 1) rest with _ | j
    · rw [hr] at h
      by_cases hv : v = s
      · rw [if_pos hv] at h
        cases h
        have hrest : s ∉ rest := (lastIdxFrom_eq_none rest (i + 1)).mp hr
        have hm1 : 0 < m := by omega
        obtain ⟨m1, rfl⟩ : ∃ m1, m = m1 + 1 := ⟨m - 1, by omega⟩
        simp only [List.getElem?_cons_succ]
        intro hc
        exact hrest (List.getElem?_mem hc)
      · rw [if_neg hv] at h; cases h
    · rw [hr] at h
      cases h
      have hle : i + 1 ≤ k := (lastIdxFrom_bound_get rest (i + 1) k hr).1
      have hm1 : 0 < m := by omega
      obtain ⟨m1, rfl⟩ : ∃ m1, m = m1 + 1 := ⟨m - 1, by omega⟩
      simp only [List.getElem?_cons_succ]
      exact ih (i + 1) k hr m1 (by omega)

/-- A successful lookup in the vocab dict points at an occurrence of the label. -/
theorem vocabToIdx_get {vocab : List String} {s : String} {i : ℕ}
    (h : vocabToIdx vocab s = some i) : vocab[i]? = some s := by
  have := lastIdxFrom_bound_get vocab 0 i h
  simpa using this.2

/-- A successful lookup in the vocab dict points at the last occurrence. -/
theorem vocabToIdx_last {vocab : List String} {s : String} {i : ℕ}
    (h : vocabToIdx vocab s = some i) :
    ∀ j, i < j → vocab[j]? ≠ some s := by
  intro j hj
  exact lastIdxFrom_last vocab 0 i h j (by omega)

/-- The dict lookup fails exactly on the labels absent from the vocabulary. -/
theorem vocabToIdx_eq_none {vocab : List String} {s : String} :
    vocabToIdx vocab s = none ↔ s ∉ vocab :=
  lastIdxFrom_eq_none vocab 0

/-- Over a duplicate-free vocabulary the dict is the two-way index mapping. -/
theorem vocabToIdx_eq_some_iff {vocab : List String} (hnd : vocab.Nodup)
    {s : String} {i : ℕ} :
    vocabToIdx vocab s = some i ↔ vocab[i]? = some s := by
  constructor
  · exact vocabToIdx_get
  · intro hget
    have hmem : s ∈ vocab := List.getElem?_mem hget
    rcases hidx : vocabToIdx vocab s with _ | j
    · exact absurd (vocabToIdx_eq_none.mp hidx) (by simpa using hmem)
    · have hj : vocab[j]? = some s := vocabToIdx_get hidx
      have hlen : i < vocab.length := (List.getElem?_eq_some_iff.mp hget).1
      have : i = j := List.getElem?_inj hlen hnd (hget.trans hj.symm)
      rw [this]

/-! ### Lemmas about the multi-hot label encoding -/

theorem label_vector_foldl_length (vocab : List String) :
    ∀ (subs : List String) (init : List ℚ),
      (subs.foldl
        (fun lab sub =>
          match vocabToIdx vocab sub with
          | some i => lab.set i 1
          | none => lab) init).length = init.length := by
  intro subs
  induction subs with
  | nil => intro init; rfl
  | cons s rest ih =>
    intro init
    rw [List.foldl_cons, ih]
    rcases vocabToIdx vocab s with _ | j
    · rfl
    · simp [List.length_set]

theorem label_vector_foldl_getElem? (vocab : List String) :
    ∀ (subs : List String) (init : List ℚ) (i : ℕ),
      init.length = vocab.length →
      (subs.foldl
        (fun lab sub =>
          match vocabToIdx vocab sub with
          | some i => lab.set i 1
          | none => lab) init)[i]? =
        if subs.any (fun s => vocabToIdx vocab s == some i) then
          (if i < init.length then some 1 else none)
        else init[i]? := by
  intro subs
  induction subs with
  | nil => intro init i _; simp
  | cons s rest ih =>
    intro init i hlen
    rw [List.foldl_cons, List.any_cons]
    rcases hidx : vocabToIdx vocab s with _ | j
    · simp only [show ((none : Option ℕ) == some i) = false from rfl, Bool.false_or]
      exact ih init i hlen
    · have hj : j < vocab.length :=
        (List.getElem?_eq_some_iff.mp (vocabToIdx_get hidx)).1
      have hset : (init.set j (1 : ℚ)).length = init.length := List.length_set ..
      show (rest.foldl _ (init.set j 1))[i]? = _
      rw [ih (init.set j 1) i (hset.trans hlen)]
      by_cases hji : j = i
      · subst hji
        simp only [beq_self_eq_true, Bool.true_or, hset]
        rcases rest.any (fun t => vocabToIdx vocab t == some j) with _ | _
        · simp only [Bool.false_eq_true, if_false]
          rw [List.getElem?_set]
          simp [hlen ▸ hj]
        · simp
      · have hcond : ((some j : Option ℕ) == some i) = false := by
          simp [hji]
        simp only [hcond, Bool.false_or, hset]
        rcases rest.any (fun t => vocabToIdx vocab t == some i) with _ | _
        · simp only [Bool.false_eq_true, if_false]
          rw [List.getElem?_set_ne hji]
        · simp

/-- The label vector has exactly one entry per vocabulary label. -/
theorem label_vector_length (vocab subs : List String) :
    (label_vector vocab subs).length = vocab.length := by
  rw [label_vector, label_vector_foldl_length]
  exact List.length_replicate ..

/-- Entry i of the label vector is 1 when some tactic string of the example is
mapped to index i by the vocab dict, and 0 otherwise. -/
theorem label_vector_getElem? (vocab subs : List String) (i : ℕ)
    (hi : i < vocab.length) :
    (label_vector vocab subs)[i]? =
      if ∃ s ∈ subs, vocabToIdx vocab s = some i then some 1 else some 0 := by
  rw [label_vector, label_vector_foldl_getElem? vocab subs _ i (by simp)]
  have hrep : (List.replicate vocab.length (0 : ℚ))[i]? = some 0 := by
    rw [List.getElem?_replicate, if_pos hi]
  have hcond : (subs.any fun s => vocabToIdx vocab s == some i) =
      decide (∃ s ∈ subs, vocabToIdx vocab s = some i) := by
    rcases h : subs.any fun s => vocabToIdx vocab s == some i with _ | _
    · have : ¬ ∃ s ∈ subs, vocabToIdx vocab s = some i := by
        intro ⟨s, hs, hsi⟩
        have : (subs.any fun s => vocabToIdx vocab s == some i) = true :=
          List.any_eq_true.mpr ⟨s, hs, by rw [hsi]; exact beq_self_eq_true _⟩
        rw [h] at this
        cases this
      simp [this]
    · obtain ⟨s, hs, hsi⟩ := List.any_eq_true.mp h
      have : ∃ s ∈ subs, vocabToIdx vocab s = some i :=
        ⟨s, hs, beq_iff_eq.mp hsi⟩
      simp [this]
  rw [hcond]
  by_cases hex : ∃ s ∈ subs, vocabToIdx vocab s = some i
  · simp [hex, List.length_replicate, hi]
  · simp [hex, hrep]

/-! ### Lemmas about the gradient accumulation loop -/

theorem runBatches_append (K : ℕ) :
    ∀ (bs1 bs2 : List (LossVal × LossVal)) (i : ℕ) (g : LossVal),
      runBatches K i g (bs1 ++ bs2) =
        ⟨(runBatches K i g bs1).stepIndices ++
            (runBatches K (i + bs1.length) (runBatches K i g bs1).finalGrad
              bs2).stepIndices,
          (runBatches K i g bs1).stepGrads ++
            (runBatches K (i + bs1.length) (runBatches K i g bs1).finalGrad
              bs2).stepGrads,
          (runBatches K i g bs1).schedSteps +
            (runBatches K (i + bs1.length) (runBatches K i g bs1).finalGrad
              bs2).schedSteps,
          (runBatches K (i + bs1.length) (runBatches K i g bs1).finalGrad
            bs2).finalGrad,
          (runBatches K i g bs1).scaledLosses ++
            (runBatches K (i + bs1.length) (runBatches K i g bs1).finalGrad
              bs2).scaledLosses,
          (runBatches K i g bs1).totalLoss +
            (runBatches K (i + bs1.length) (runBatches K i g bs1).finalGrad
              bs2).totalLoss⟩ := by
  intro bs1
  induction bs1 with
  | nil =>
    intro bs2 i g
    simp [runBatches]
  | cons b bs1 ih =>
    intro bs2 i g
    have hidx : i + (bs1.length + 1) = (i + 1) + bs1.length := by omega
    by_cases h : (i + 1) % K = 0
    · simp only [List.cons_append, runBatches, if_pos h, List.length_cons, hidx,
        List.append_eq, ih bs2 (i + 1) 0]
      simp only [EpochResult.mk.injEq, List.cons_append]
      refine ⟨?_, ?_, ?_, ?_, ?_, ?_⟩ <;>
        first
          | trivial
          | omega
          | exact (add_assoc ..).symm
    · simp only [List.cons_append, runBatches, if_neg h, List.length_cons, hidx,
        List.append_eq, ih bs2 (i + 1) (g + b.2.divNat K)]
      simp only [EpochResult.mk.injEq, List.cons_append]
      refine ⟨?_, ?_, ?_, ?_, ?_, ?_⟩ <;>
        first
          | trivial
          | omega
          | exact (add_assoc ..).symm

/-- Arithmetic core of the step condition: an index strictly inside an
accumulation window does not trigger a step. -/
theorem mod_ne_zero_of_inside {K j : ℕ} (hK : 1 ≤ K) (m t : ℕ)
    (hj : j + 1 = t + K * m) (ht1 : 1 ≤ t) (ht2 : t < K) :
    (j + 1) % K ≠ 0 := by
  rw [hj, Nat.add_mul_mod_self_left, Nat.mod_eq_of_lt ht2]
  omega

/-- A run over micro-batches none of which sits at the end of an accumulation
window performs no optimizer step: the gradient keeps accumulating and only the
losses are recorded. -/
theorem runBatches_noStep (K : ℕ) :
    ∀ (bs : List (LossVal × LossVal)) (i : ℕ) (g : LossVal),
      (∀ j, i ≤ j → j < i + bs.length → (j + 1) % K ≠ 0) →
      runBatches K i g bs =
        ⟨[], [], 0, g + (bs.map (fun b => b.2.divNat K)).sum,
          bs.map (fun b => b.1.divNat K),
          (bs.map (fun b => (b.1.divNat K).mulNat K)).sum⟩ := by
  intro bs
  induction bs with
  | nil => intro i g _; simp [runBatches]
  | cons b rest ih =>
    intro i g h
    have hi : (i + 1) % K ≠ 0 := h i le_rfl (by simp)
    simp only [runBatches, if_neg hi]
    rw [ih (i + 1) (g + b.2.divNat K)
      (fun j hj1 hj2 => h j (by omega) (by simp only [List.length_cons]; omega))]
    simp [EpochResult.mk.injEq, add_assoc]

/-- A run over exactly one accumulation window, starting at a window boundary,
performs exactly one optimizer and scheduler step, at the last index of the
window, consuming the clipped sum of the scaled gradients, and leaves a zeroed
gradient. -/
theorem runBatches_block (K : ℕ) (hK : 1 ≤ K) (m : ℕ) (g : LossVal)
    (bs : List (LossVal × LossVal)) (hlen : bs.length = K) :
    runBatches K (K * m) g bs =
      ⟨[K * m + (K - 1)],
        [(g + (bs.map (fun b => b.2.divNat K)).sum).clipTo1], 1, 0,
        bs.map (fun b => b.1.divNat K),
        (bs.map (fun b => (b.1.divNat K).mulNat K)).sum⟩ := by
  have hne : bs ≠ [] := by
    intro hnil
    rw [hnil] at hlen
    simp at hlen
    omega
  obtain ⟨front, last, hsplit⟩ : ∃ front last, bs = front ++ [last] :=
    ⟨bs.dropLast, bs.getLast hne, (List.dropLast_append_getLast hne).symm⟩
  subst hsplit
  have hfl : front.length = K - 1 := by
    rw [List.length_append, List.length_singleton] at hlen
    omega
  rw [runBatches_append]
  rw [runBatches_noStep K front (K * m) g (fun j hj1 hj2 => by
    rw [hfl] at hj2
    exact mod_ne_zero_of_inside hK m (j + 1 - K * m) (by omega) (by omega)
      (by omega))]
  have hstep : (K * m + front.length + 1) % K = 0 := by
    have h1 : K * m + front.length + 1 = 0 + K * (m + 1) := by
      rw [hfl, Nat.mul_succ]
      omega
    rw [h1, Nat.add_mul_mod_self_left, Nat.zero_mod]
  simp only [runBatches, if_pos hstep]
  simp [EpochResult.mk.injEq, List.map_append, List.sum_append, add_assoc, hfl]

theorem drop_append_of_length {α : Type} {l1 l2 : List α} {n : ℕ}
    (h : l1.length = n) (i : ℕ) :
    (l1 ++ l2).drop (n + i) = l2.drop i := by
  subst h
  exact List.drop_append i

theorem range'_split (s a b : ℕ) :
    List.range' s (a + b) = List.range' s a ++ List.range' (s + a) b := by
  have h := List.range'_append s a b 1
  rw [Nat.one_mul] at h
  rw [Nat.add_comm a b, ← h]

/-- No index strictly inside an accumulation window passes the step filter. -/
theorem filter_range'_noStep (K : ℕ) (hK : 1 ≤ K) (m len : ℕ) (hlen : len < K) :
    (List.range' (K * m) len).filter (fun j => (j + 1) % K == 0) = [] := by
  rw [List.filter_eq_nil_iff]
  intro a ha
  rw [List.mem_range'_1] at ha
  have h : (a + 1) % K ≠ 0 :=
    mod_ne_zero_of_inside hK m (a + 1 - K * m) (by omega) (by omega) (by omega)
  simpa using h

/-- Over one full accumulation window the step filter keeps exactly the last
index of the window. -/
theorem filter_range'_block (K : ℕ) (hK : 1 ≤ K) (m : ℕ) :
    (List.range' (K * m) K).filter (fun j => (j + 1) % K == 0) =
      [K * m + (K - 1)] := by
  have hsplit : List.range' (K * m) K =
      List.range' (K * m) (K - 1) ++ List.range' (K * m + (K - 1)) 1 := by
    have h := range'_split (K * m) (K - 1) 1
    rw [show (K - 1) + 1 = K from by omega] at h
    exact h
  rw [hsplit, List.filter_append, filter_range'_noStep K hK m (K - 1) (by omega),
    List.nil_append, List.range'_one]
  have hstep : (K * m + (K - 1) + 1) % K = 0 := by
    have h2 : K * m + (K - 1) + 1 = 0 + K * (m + 1) := by
      rw [Nat.mul_succ]
      omega
    rw [h2, Nat.add_mul_mod_self_left, Nat.zero_mod]
  simp [List.filter, hstep]

/-- Counting lemma: among the first n micro-batch indices, exactly n / K sit at
the end of an accumulation window. -/
theorem length_filter_range (K : ℕ) (hK : 1 ≤ K) :
    ∀ n, ((List.range n).filter (fun i => (i + 1) % K == 0)).length = n / K := by
  intro n
  induction n with
  | zero => simp
  | succ n ih =>
    rw [List.range_succ, List.filter_append, List.length_append, ih]
    by_cases h : (n + 1) % K = 0
    · have hb : ((n + 1) % K == 0) = true := by simpa using h
      rw [Nat.succ_div, if_pos (Nat.dvd_of_mod_eq_zero h)]
      simp [List.filter, hb]
    · have hb : ((n + 1) % K == 0) = false := by simpa using h
      rw [Nat.succ_div, if_neg (fun hd => h (Nat.mod_eq_zero_of_dvd hd))]
      simp [List.filter, hb]

theorem fullBlocks_of_lt {K : ℕ} {l : List LossVal} (h : l.length < K) :
    fullBlocks K l = [] := by
  rw [fullBlocks, dif_neg]
  rintro ⟨h1, h2⟩
  omega

theorem fullBlocks_of_le {K : ℕ} {l : List LossVal} (hK : 1 ≤ K)
    (h : K ≤ l.length) :
    fullBlocks K l = l.take K :: fullBlocks K (l.drop K) := by
  rw [fullBlocks, dif_pos ⟨hK, h⟩]

/-- Specification-side view of one epoch of train_epoch started at a window
boundary with a zeroed gradient. -/
def epochSpec (K : ℕ) (start : ℕ) (bs : List (LossVal × LossVal)) :
    EpochResult :=
  ⟨(List.range' start bs.length).filter (fun j => (j + 1) % K == 0),
    (fullBlocks K (bs.map (fun b => b.2.divNat K))).map (fun c => c.sum.clipTo1),
    bs.length / K,
    ((bs.map (fun b => b.2.divNat K)).drop (K * (bs.length / K))).sum,
    bs.map (fun b => b.1.divNat K),
    (bs.map (fun b => (b.1.divNat K).mulNat K)).sum⟩

/-- Master characterization of the accumulation loop: started at any window
boundary with a zeroed gradient it steps exactly at the window ends, each step
consumes exactly the clipped sum of the scaled gradients of its own window, the
scheduler steps once per optimizer step, the trailing partial window stays
accumulated in the gradient, and every loss is scaled and totalled. -/
theorem runBatches_spec (K : ℕ) (hK : 1 ≤ K) :
    ∀ (bs : List (LossVal × LossVal)) (m : ℕ),
      runBatches K (K * m) 0 bs = epochSpec K (K * m) bs := by
  suffices H : ∀ (n : ℕ) (bs : List (LossVal × LossVal)) (m : ℕ),
      bs.length = n → runBatches K (K * m) 0 bs = epochSpec K (K * m) bs by
    exact fun bs m => H bs.length bs m rfl
  intro n
  induction n using Nat.strong_induction_on with
  | _ n ih =>
    intro bs m hn
    by_cases hsmall : bs.length < K
    · rw [runBatches_noStep K bs (K * m) 0 (fun j hj1 hj2 =>
        mod_ne_zero_of_inside hK m (j + 1 - K * m) (by omega) (by omega)
          (by omega))]
      rw [epochSpec, Nat.div_eq_of_lt hsmall,
        filter_range'_noStep K hK m bs.length hsmall,
        fullBlocks_of_lt (by rw [List.length_map]; omega)]
      simp
    · push_neg at hsmall
      obtain ⟨b1, b2, hbs, hb1⟩ : ∃ b1 b2, bs = b1 ++ b2 ∧ b1.length = K :=
        ⟨bs.take K, bs.drop K, (List.take_append_drop K bs).symm,
          by rw [List.length_take]; omega⟩
      subst hbs
      have hb2 : b2.length < n := by
        rw [List.length_append, hb1] at hn
        omega
      rw [runBatches_append, runBatches_block K hK m 0 b1 hb1]
      have hKm : K * m + b1.length = K * (m + 1) := by
        rw [hb1, Nat.mul_succ]
      rw [hKm]
      rw [ih b2.length hb2 b2 (m + 1) rfl]
      have hlen : (b1 ++ b2).length = K + b2.length := by
        rw [List.length_append, hb1]
      have hdiv : (K + b2.length) / K = b2.length / K + 1 := by
        rw [Nat.add_comm K b2.length, Nat.add_div_right _ (by omega)]
      have hmb1 : (b1.map (fun b => b.2.divNat K)).length = K := by
        rw [List.length_map, hb1]
      have hcond : K ≤
          (List.map (fun b => b.2.divNat K) b1 ++
            List.map (fun b => b.2.divNat K) b2).length := by
        rw [List.length_append, hmb1]
        omega
      have hidxfield :
          (List.range' (K * m) (K + b2.length)).filter
              (fun j => (j + 1) % K == 0) =
            (K * m + (K - 1)) ::
              (List.range' (K * (m + 1)) b2.length).filter
                (fun j => (j + 1) % K == 0) := by
        rw [range'_split (K * m) K b2.length, List.filter_append,
          filter_range'_block K hK m,
          show K * m + K = K * (m + 1) from by rw [Nat.mul_succ]]
        rfl
      have hgradfield :
          (fullBlocks K
              (List.map (fun b => b.2.divNat K) b1 ++
                List.map (fun b => b.2.divNat K) b2)).map
              (fun c => c.sum.clipTo1) =
            LossVal.clipTo1 (List.map (fun b => b.2.divNat K) b1).sum ::
              (fullBlocks K (List.map (fun b => b.2.divNat K) b2)).map
                (fun c => c.sum.clipTo1) := by
        rw [fullBlocks_of_le hK hcond, List.take_left' hmb1,
          List.drop_left' hmb1, List.map_cons]
      have hfinfield :
          (List.map (fun b => b.2.divNat K) b1 ++
              List.map (fun b => b.2.divNat K) b2).drop
              (K * (b2.length / K + 1)) =
            (List.map (fun b => b.2.divNat K) b2).drop
              (K * (b2.length / K)) := by
        rw [Nat.mul_succ, Nat.add_comm (K * (b2.length / K)) K,
          drop_append_of_length hmb1 (K * (b2.length / K))]
      simp only [epochSpec, EpochResult.mk.injEq, hlen, hdiv, hidxfield,
        List.map_append, List.sum_append, hgradfield, hfinfield]
      and_intros <;>
        first
          | trivial
          | omega
          | simp [zero_add]

/-- Specialization of the master lemma to the real entry point: train_epoch
starts at index 0 (a window boundary) with a zeroed gradient. -/
theorem train_epoch_spec (K : ℕ) (hK : 1 ≤ K) (g0 : LossVal)
    (batches : List (LossVal × LossVal)) :
    train_epoch g0 batches K = epochSpec K 0 batches := by
  have h := runBatches_spec K hK batches 0
  rw [Nat.mul_zero] at h
  exact h

/-- Batch list shared by the concrete witnesses below. -/
def demoBatches : List (LossVal × LossVal) :=
  [(LossVal.fin 1, LossVal.fin 2), (LossVal.fin 3, LossVal.fin 4),
    (LossVal.fin 5, LossVal.fin 6)]

/-! ### Claims -/

/-- C1: for every accumulation factor K at least 1, train_epoch multiplies each
micro-batch loss by 1/K before the backward pass, performs the optimizer step
and the scheduler step exactly after the K-th backward pass, at micro-batch
indices i with (i + 1) mod K = 0, with one scheduler step per optimizer step,
and zeroes the gradient after each step, so that each optimizer step consumes
exactly the clipped sum of the scaled gradients of its own window of K
micro-batches. -/
theorem claim_C1_gradient_accumulation (K : ℕ) (hK : 1 ≤ K) (g0 : LossVal)
    (batches : List (LossVal × LossVal)) :
    (train_epoch g0 batches K).scaledLosses =
        batches.map (fun b => b.1.divNat K) ∧
      (train_epoch g0 batches K).stepIndices =
        (List.range batches.length).filter (fun i => (i + 1) % K == 0) ∧
      (train_epoch g0 batches K).schedSteps =
        (train_epoch g0 batches K).stepIndices.length ∧
      (train_epoch g0 batches K).stepGrads =
        (fullBlocks K (batches.map (fun b => b.2.divNat K))).map
          (fun c => c.sum.clipTo1) := by
  rw [train_epoch_spec K hK g0 batches]
  refine ⟨rfl, by rw [List.range_eq_range']; rfl, ?_, rfl⟩
  simp only [epochSpec]
  rw [← List.range_eq_range', length_filter_range K hK]

/-- Witness for C1: a concrete run with K = 2 over three micro-batches. -/
theorem claim_C1_witness :
    1 ≤ 2 ∧
      ((train_epoch 0 demoBatches 2).scaledLosses =
          demoBatches.map (fun b => b.1.divNat 2) ∧
        (train_epoch 0 demoBatches 2).stepIndices =
          (List.range demoBatches.length).filter (fun i => (i + 1) % 2 == 0) ∧
        (train_epoch 0 demoBatches 2).schedSteps =
          (train_epoch 0 demoBatches 2).stepIndices.length ∧
        (train_epoch 0 demoBatches 2).stepGrads =
          (fullBlocks 2 (demoBatches.map (fun b => b.2.divNat 2))).map
            (fun c => c.sum.clipTo1)) :=
  ⟨by omega, claim_C1_gradient_accumulation 2 (by omega) 0 demoBatches⟩

/-- C2: the produced label vector has one entry per vocabulary label, entry i
is 1 exactly when the label at index i of VOCAB occurs in the examples tactic
list, every entry is 0 or 1, and a tactic string absent from VOCAB is dropped
silently: the encoding is total (no exception path exists) and an unknown
string sets no entry. -/
theorem claim_C2_label_vector (subs : List String) (i : ℕ)
    (hi : i < NUM_LABELS) :
    (label_vector VOCAB subs).length = NUM_LABELS ∧
      ((label_vector VOCAB subs)[i]? = some 1 ↔
        ∃ s ∈ subs, VOCAB[i]? = some s) ∧
      ((label_vector VOCAB subs)[i]? = some 0 ∨
        (label_vector VOCAB subs)[i]? = some 1) := by
  have hnd : VOCAB.Nodup := by decide
  have hi' : i < VOCAB.length := hi
  have hequiv : (∃ s ∈ subs, vocabToIdx VOCAB s = some i) ↔
      (∃ s ∈ subs, VOCAB[i]? = some s) :=
    ⟨fun ⟨s, hs, h⟩ => ⟨s, hs, (vocabToIdx_eq_some_iff hnd).mp h⟩,
      fun ⟨s, hs, h⟩ => ⟨s, hs, (vocabToIdx_eq_some_iff hnd).mpr h⟩⟩
  refine ⟨label_vector_length VOCAB subs, ?_, ?_⟩
  · rw [label_vector_getElem? VOCAB subs i hi']
    by_cases hex : ∃ s ∈ subs, vocabToIdx VOCAB s = some i
    · rw [if_pos hex]
      exact ⟨fun _ => hequiv.mp hex, fun _ => rfl⟩
    · rw [if_neg hex]
      exact ⟨fun h => absurd h (by simp), fun h => absurd (hequiv.mpr h) hex⟩
  · rw [label_vector_getElem? VOCAB subs i hi']
    by_cases hex : ∃ s ∈ subs, vocabToIdx VOCAB s = some i
    · rw [if_pos hex]
      exact Or.inr rfl
    · rw [if_neg hex]
      exact Or.inl rfl

/-- Witness for C2: a tactic list holding one known and one unknown label,
checked at index 0. -/
theorem claim_C2_witness :
    0 < NUM_LABELS ∧
      ((label_vector VOCAB ["x = 0", "not a tactic"]).length = NUM_LABELS ∧
        ((label_vector VOCAB ["x = 0", "not a tactic"])[0]? = some 1 ↔
          ∃ s ∈ ["x = 0", "not a tactic"], VOCAB[0]? = some s) ∧
        ((label_vector VOCAB ["x = 0", "not a tactic"])[0]? = some 0 ∨
          (label_vector VOCAB ["x = 0", "not a tactic"])[0]? = some 1)) :=
  ⟨by decide, claim_C2_label_vector ["x = 0", "not a tactic"] 0 (by decide)⟩

/-- C3 counterexample: at logit 0 the sigmoid probability is exactly one half,
and the evaluator does not count the label as predicted present, because the
code compares with a strict greater-than; the claimed rule, probability at
least one half implies predicted present, therefore fails at this input. -/
theorem claim_C3_counterexample :
    1 / (1 + Real.exp (-(0 : ℝ))) = 1 / 2 ∧ ¬ predictedPresent 0 := by
  constructor
  · rw [neg_zero, Real.exp_zero]
    norm_num
  · rw [predictedPresent, neg_zero, Real.exp_zero]
    norm_num

/-- C3 amended: a label is counted as predicted present exactly when its
sigmoid probability is strictly greater than one half, equivalently when its
logit is strictly positive; a probability of exactly one half is predicted
absent. -/
theorem claim_C3_strict_threshold (z : ℝ) : predictedPresent z ↔ 0 < z := by
  rw [predictedPresent, gt_iff_lt, div_lt_div_iff (by norm_num) (by positivity),
    one_mul, one_mul]
  constructor
  · intro h
    have h1 : Real.exp (-z) < 1 := by linarith
    have h2 : -z < 0 := Real.exp_lt_one_iff.mp h1
    linarith
  · intro hz
    have h1 : Real.exp (-z) < 1 := Real.exp_lt_one_iff.mpr (by linarith)
    linarith

/-- C4 counterexample: on ground truth [[1,0,1],[0,1,0]] and predictions
[[1,0,0],[0,1,0]] the micro F1 the evaluator computes is not 0.8: the sklearn
call receives the flattened 1-D binary arrays with no labels argument, pools
both classes 0 and 1 into the micro sums, and so returns the per-cell accuracy
5/6. -/
theorem claim_C4_counterexample :
    micro_f1 [[1,0,0],[0,1,0]] [[1,0,1],[0,1,0]] ≠ 4/5 := by
  have htp : micro_tp_sum [[1,0,0],[0,1,0]] [[1,0,1],[0,1,0]] = 5 := by decide
  have hfp : micro_fp_sum [[1,0,0],[0,1,0]] [[1,0,1],[0,1,0]] = 1 := by decide
  have hfn : micro_fn_sum [[1,0,0],[0,1,0]] [[1,0,1],[0,1,0]] = 1 := by decide
  rw [micro_f1, micro_precision, micro_recall, htp, hfp, hfn]
  norm_num

/-- C4 amended: on ground truth [[1,0,1],[0,1,0]] and predictions
[[1,0,0],[0,1,0]] over a 3-label vocabulary, the evaluator computes an
exact-match rate of 0.5; the positive-class cell counts are TP = 2, FP = 0,
FN = 1 (from which a positive-class-only F1 of 0.8 would follow), but the
micro precision, recall and F1 the evaluator actually computes pool both
classes of the flattened binary arrays and all equal the per-cell accuracy
5/6. -/
theorem claim_C4_micro_pools_both_classes :
    accuracy [[1,0,0],[0,1,0]] [[1,0,1],[0,1,0]] = 1/2 ∧
      classTP ([[1,0,0],[0,1,0]] : List (List ℚ)).flatten
        ([[1,0,1],[0,1,0]] : List (List ℚ)).flatten 1 = 2 ∧
      classFP ([[1,0,0],[0,1,0]] : List (List ℚ)).flatten
        ([[1,0,1],[0,1,0]] : List (List ℚ)).flatten 1 = 0 ∧
      classFN ([[1,0,0],[0,1,0]] : List (List ℚ)).flatten
        ([[1,0,1],[0,1,0]] : List (List ℚ)).flatten 1 = 1 ∧
      micro_precision [[1,0,0],[0,1,0]] [[1,0,1],[0,1,0]] = 5/6 ∧
      micro_recall [[1,0,0],[0,1,0]] [[1,0,1],[0,1,0]] = 5/6 ∧
      micro_f1 [[1,0,0],[0,1,0]] [[1,0,1],[0,1,0]] = 5/6 := by
  have htp : micro_tp_sum [[1,0,0],[0,1,0]] [[1,0,1],[0,1,0]] = 5 := by decide
  have hfp : micro_fp_sum [[1,0,0],[0,1,0]] [[1,0,1],[0,1,0]] = 1 := by decide
  have hfn : micro_fn_sum [[1,0,0],[0,1,0]] [[1,0,1],[0,1,0]] = 1 := by decide
  refine ⟨by norm_num [accuracy], by decide, by decide, by decide, ?_, ?_, ?_⟩
  · rw [micro_precision, htp, hfp]
    norm_num
  · rw [micro_recall, htp, hfn]
    norm_num
  · rw [micro_f1, micro_precision, micro_recall, htp, hfp, hfn]
    norm_num

/-- C5 counterexample: with patience 2 and min_delta 0.01 the metric sequence
0.50, 0.50, 0.505, 0.504 does not stop after the 4th evaluation. -/
theorem claim_C5_counterexample :
    earlyStopEvals 2 (1/100) [1/2, 1/2, 101/200, 63/125] ≠ 4 := by
  norm_num [earlyStopEvals, earlyStopLoop]

/-- C5 amended: with patience 2 and min_delta 0.01 the metric sequence 0.50,
0.50, 0.505, 0.504 triggers the early stop after the 3rd evaluation: the first
evaluation improves over the initial best of 0, and the 2nd and 3rd both fail
to exceed 0.50 + 0.01, so the patience counter reaches 2 there. -/
theorem claim_C5_stop_after_third :
    earlyStopEvals 2 (1/100) [1/2, 1/2, 101/200, 63/125] = 3 := by
  norm_num [earlyStopEvals, earlyStopLoop]

/-- C6 counterexample: the export call does not name its first input
token_ids; the input tensor names are input_ids and attention_mask. -/
theorem claim_C6_counterexample :
    onnx_input_names ≠ ["token_ids", "attention_mask"] := by
  decide

/-- C6 amended: the exported static-graph interface has the two integer-tensor
inputs named input_ids and attention_mask and the single float-tensor output
named logits, and the sidecar vocab.json lists exactly the NUM_LABELS labels of
VOCAB in index order, so that position i of the sidecar is the label the vocab
dict maps to index i. -/
theorem claim_C6_export_interface :
    onnx_input_names = ["input_ids", "attention_mask"] ∧
      onnx_output_names = ["logits"] ∧
      sidecar_vocab = VOCAB ∧
      sidecar_vocab.length = NUM_LABELS ∧
      ∀ (i : ℕ) (s : String), sidecar_vocab[i]? = some s →
        vocabToIdx VOCAB s = some i := by
  refine ⟨rfl, rfl, rfl, rfl, ?_⟩
  intro i s h
  exact (vocabToIdx_eq_some_iff (by decide)).mpr h

/-- Witness for C6: the sidecar entry at position 0 round-trips through the
vocab dict. -/
theorem claim_C6_witness :
    sidecar_vocab[0]? = some "x = 0" ∧ vocabToIdx VOCAB "x = 0" = some 0 :=
  ⟨rfl, claim_C6_export_interface.2.2.2.2 0 "x = 0" rfl⟩

/-- C7 counterexample: a run whose first micro-batch produces a non-finite loss
still processes the following micro-batch, still performs both optimizer steps,
and ends with a non-finite running total; no abort happens. -/
theorem claim_C7_counterexample :
    (train_epoch 0 [(LossVal.nonfinite, LossVal.nonfinite),
        (LossVal.fin 1, LossVal.fin 1)] 1).scaledLosses.length = 2 ∧
      (train_epoch 0 [(LossVal.nonfinite, LossVal.nonfinite),
        (LossVal.fin 1, LossVal.fin 1)] 1).stepIndices = [0, 1] ∧
      (train_epoch 0 [(LossVal.nonfinite, LossVal.nonfinite),
        (LossVal.fin 1, LossVal.fin 1)] 1).totalLoss = LossVal.nonfinite :=
  ⟨rfl, rfl, rfl⟩

/-- C7 amended: train_epoch performs no finiteness check on the loss: every
micro-batch is processed whatever its loss value, and a non-finite loss is
scaled, accumulated and propagated into the running total like any finite one,
so the reported epoch total is non-finite while training simply continues. -/
theorem claim_C7_nonfinite_continues (g0 : LossVal)
    (batches : List (LossVal × LossVal)) (K : ℕ) (hK : 1 ≤ K)
    (hnan : LossVal.nonfinite ∈ batches.map (fun b => b.1)) :
    (train_epoch g0 batches K).scaledLosses.length = batches.length ∧
      (train_epoch g0 batches K).totalLoss = LossVal.nonfinite := by
  rw [train_epoch_spec K hK g0 batches]
  constructor
  · simp [epochSpec]
  · simp only [epochSpec]
    have hmap : batches.map (fun b => (b.1.divNat K).mulNat K) =
        batches.map (fun b => b.1) :=
      List.map_congr_left (fun b _ => LossVal.mulNat_divNat b.1 K hK)
    rw [hmap]
    exact LossVal.sum_eq_nonfinite hnan

/-- Witness for C7: the two-batch run with a leading non-finite loss. -/
theorem claim_C7_witness :
    (1 ≤ 1 ∧ LossVal.nonfinite ∈
        [(LossVal.nonfinite, LossVal.nonfinite),
          (LossVal.fin 1, LossVal.fin 1)].map (fun b => b.1)) ∧
      ((train_epoch 0 [(LossVal.nonfinite, LossVal.nonfinite),
          (LossVal.fin 1, LossVal.fin 1)] 1).scaledLosses.length =
        [(LossVal.nonfinite, LossVal.nonfinite),
          (LossVal.fin 1, LossVal.fin 1)].length ∧
        (train_epoch 0 [(LossVal.nonfinite, LossVal.nonfinite),
          (LossVal.fin 1, LossVal.fin 1)] 1).totalLoss = LossVal.nonfinite) :=
  ⟨⟨by omega, by decide⟩,
    claim_C7_nonfinite_continues 0
      [(LossVal.nonfinite, LossVal.nonfinite), (LossVal.fin 1, LossVal.fin 1)]
      1 (by omega) (by decide)⟩

/-- C8 counterexample: on a vocabulary with a duplicate entry the dataset
constructor does not fail; it silently builds the dict, the duplicated label is
mapped to its last index, and the resulting label vector sets position 1, not
position 0. -/
theorem claim_C8_counterexample :
    vocabToIdx ["x = 0", "x = 0"] "x = 0" = some 1 ∧
      label_vector ["x = 0", "x = 0"] ["x = 0"] = [0, 1] :=
  ⟨rfl, by decide⟩

/-- C8 amended: construction of the vocab dict never fails; a duplicated label
is silently collapsed onto its last occurrence index: whenever the dict maps a
label to index i, the vocabulary holds that label at position i and at no later
position. -/
theorem claim_C8_duplicates_last_index (vocab : List String) (s : String)
    (i : ℕ) (h : vocabToIdx vocab s = some i) :
    vocab[i]? = some s ∧ ∀ j, i < j → vocab[j]? ≠ some s :=
  ⟨vocabToIdx_get h, vocabToIdx_last h⟩

/-- Witness for C8: the duplicate vocabulary with its collapsed lookup. -/
theorem claim_C8_witness :
    vocabToIdx ["x = 0", "x = 0"] "x = 0" = some 1 ∧
      ((["x = 0", "x = 0"] : List String)[1]? = some "x = 0" ∧
        ∀ j, 1 < j → (["x = 0", "x = 0"] : List String)[j]? ≠ some "x = 0") :=
  ⟨rfl, claim_C8_duplicates_last_index ["x = 0", "x = 0"] "x = 0" 1 rfl⟩

/-- C9: for every label of VOCAB, mapping the label to its index through the
vocab dict and the index back through the vocabulary list returns the same
label. -/
theorem claim_C9_round_trip (l : String) (hl : l ∈ VOCAB) :
    (vocabToIdx VOCAB l).bind (fun i => VOCAB[i]?) = some l := by
  have hall : VOCAB.all
      (fun l => decide ((vocabToIdx VOCAB l).bind (fun i => VOCAB[i]?) =
        some l)) = true := by decide
  exact of_decide_eq_true (List.all_eq_true.mp hall l hl)

/-- Witness for C9: round trip of the first vocabulary label. -/
theorem claim_C9_witness :
    "x = 0" ∈ VOCAB ∧
      (vocabToIdx VOCAB "x = 0").bind (fun i => VOCAB[i]?) = some "x = 0" :=
  ⟨by decide, claim_C9_round_trip "x = 0" (by decide)⟩

/-- C10: when the number of micro-batches is not a multiple of K, the trailing
length mod K micro-batches trigger no optimizer step and no scheduler step (all
step indices lie before the tail and the scheduler stepped exactly
length / K times), their scaled gradients are exactly what remains accumulated
at epoch end, a following train_epoch call behaves as if the leftover gradient
were zero (optimizer.zero_grad() at entry discards it), and the reported epoch
average still includes every loss, tail included. -/
theorem claim_C10_leftover_tail (K : ℕ) (hK : 1 ≤ K) (g0 : LossVal)
    (batches : List (LossVal × LossVal))
    (hr : batches.length % K ≠ 0) :
    (∀ i ∈ (train_epoch g0 batches K).stepIndices,
        i < batches.length - batches.length % K) ∧
      (train_epoch g0 batches K).schedSteps = batches.length / K ∧
      (train_epoch g0 batches K).finalGrad =
        ((batches.map (fun b => b.2.divNat K)).drop
          (batches.length - batches.length % K)).sum ∧
      (∀ (g1 : LossVal) (batches1 : List (LossVal × LossVal)),
        train_epoch g1 batches1 K = train_epoch 0 batches1 K) ∧
      train_epoch_avg g0 batches K =
        LossVal.divNat (batches.map (fun b => b.1)).sum batches.length := by
  have hspec := train_epoch_spec K hK g0 batches
  have hmoddiv := Nat.mod_add_div batches.length K
  have hmodlt : batches.length % K < K := Nat.mod_lt _ (by omega)
  have hsub : batches.length - batches.length % K =
      K * (batches.length / K) := by omega
  refine ⟨?_, ?_, ?_, ?_, ?_⟩
  · intro i hi
    rw [hspec] at hi
    simp only [epochSpec] at hi
    obtain ⟨hmem, hstep⟩ := List.mem_filter.mp hi
    rw [List.mem_range'_1] at hmem
    have hstep' : (i + 1) % K = 0 := by simpa using hstep
    by_contra hge
    exact mod_ne_zero_of_inside hK (batches.length / K)
      (i + 1 - K * (batches.length / K)) (by omega) (by omega) (by omega)
      hstep'
  · rw [hspec]
    rfl
  · rw [hspec, hsub]
    rfl
  · intro g1 batches1
    rfl
  · rw [train_epoch_avg, hspec]
    simp only [epochSpec]
    have hmap : batches.map (fun b => (b.1.divNat K).mulNat K) =
        batches.map (fun b => b.1) :=
      List.map_congr_left (fun b _ => LossVal.mulNat_divNat b.1 K hK)
    rw [hmap]

/-- Witness for C10: K = 2 over three micro-batches, one leftover at the end. -/
theorem claim_C10_witness :
    (1 ≤ 2 ∧ demoBatches.length % 2 ≠ 0) ∧
      ((∀ i ∈ (train_epoch 0 demoBatches 2).stepIndices,
          i < demoBatches.length - demoBatches.length % 2) ∧
        (train_epoch 0 demoBatches 2).schedSteps = demoBatches.length / 2 ∧
        (train_epoch 0 demoBatches 2).finalGrad =
          ((demoBatches.map (fun b => b.2.divNat 2)).drop
            (demoBatches.length - demoBatches.length % 2)).sum ∧
        (∀ (g1 : LossVal) (batches1 : List (LossVal × LossVal)),
          train_epoch g1 batches1 2 = train_epoch 0 batches1 2) ∧
        train_epoch_avg 0 demoBatches 2 =
          LossVal.divNat (demoBatches.map (fun b => b.1)).sum
            demoBatches.length) :=
  ⟨⟨by omega, by decide⟩, claim_C10_leftover_tail 2 (by omega) 0 demoBatches
    (by decide)⟩
